import Mathlib

/-! A Lean model of the contact processing pipeline in process_contacts.py:
the field normalizers, the quality scorer, the classifier and the duplicate
detector, with theorems about their behaviour.  Python strings are modelled
as lists of characters, missing cells as none, and float quality scores as
rationals (the score constants and thresholds are exactly representable for
every comparison the pipeline performs). -/

abbrev Str := List Char

def chars (s : String) : Str := s.data

/-- Whitespace as stripped by str.strip and matched by the regex class \s. -/
def isSpace (c : Char) : Bool := c == ' ' || c == '\t' || c == '\n' || c == '\r'

/-- Python str.strip: drop leading and trailing whitespace. -/
def strip (s : Str) : Str := ((s.dropWhile isSpace).reverse.dropWhile isSpace).reverse

/-- Python str.lower (ASCII). -/
def lower (s : Str) : Str := s.map Char.toLower

/-- Python str.split on the literal separator ":::" (left to right, non overlapping). -/
def splitTriColon : Str → List Str
  | ':' :: ':' :: ':' :: rest => [] :: splitTriColon rest
  | c :: rest =>
    match splitTriColon rest with
    | [] => [[c]]
    | h :: t => (c :: h) :: t
  | [] => [[]]

/-- Characters allowed in the local part of the email regex. -/
def isLocalChar (c : Char) : Bool :=
  c.isAlpha || c.isDigit || c == '.' || c == '_' || c == '%' || c == '+' || c == '-'

/-- Characters allowed in the domain part of the email regex. -/
def isDomainChar (c : Char) : Bool := c.isAlpha || c.isDigit || c == '.' || c == '-'

/-- Characters kept by clean_phone's substitution (digits, +, -, parentheses, whitespace). -/
def isPhoneChar (c : Char) : Bool :=
  c.isDigit || c == '+' || c == '-' || c == '(' || c == ')' || isSpace c

/-- Split a string at the first occurrence of x: parts before and after, none if absent. -/
def breakAtFirst (x : Char) : Str → Option (Str × Str)
  | [] => none
  | c :: rest =>
    if c = x then some ([], rest)
    else (breakAtFirst x rest).map (fun p => (c :: p.1, p.2))

/-- The anchored regex of clean_email: one or more local characters, an at sign,
a nonempty domain of domain characters, a dot, then at least two letters.
The local part runs to the first at sign and the final label starts after the
last dot, exactly as the backtracking regex resolves. -/
def emailMatch (s : Str) : Bool :=
  match breakAtFirst '@' s with
  | none => false
  | some (L, R) =>
    match breakAtFirst '.' R.reverse with
    | none => false
    | some (Trev, Drev) =>
      decide (L ≠ []) && L.all isLocalChar && decide (Drev ≠ []) &&
        Drev.all isDomainChar && Trev.all Char.isAlpha && decide (2 ≤ Trev.length)

/-- clean_text: missing becomes empty, else strip and cap at 500 characters. -/
def clean_text : Option Str → Str
  | none => []
  | some s => (strip s).take 500

/-- The candidate loop inside clean_email: strip each candidate and return the
first one matching the email regex, else empty. -/
def emailLoop : List Str → Str
  | [] => []
  | e :: rest => if emailMatch (strip e) then strip e else emailLoop rest

/-- clean_email: missing or empty becomes empty, else split on ":::" and return
the first stripped candidate matching the regex, else empty. -/
def clean_email : Option Str → Str
  | none => []
  | some s => if s = [] then [] else emailLoop (splitTriColon s)

/-- clean_phone: missing or empty becomes empty, else take the first ":::"
segment, strip it, keep only phone characters, cap at 20. -/
def clean_phone : Option Str → Str
  | none => []
  | some s =>
    if s = [] then []
    else ((strip ((splitTriColon s).headD [])).filter isPhoneChar).take 20

/-- clean_url: missing or empty becomes empty, else strip and cap at 500. -/
def clean_url : Option Str → Str
  | none => []
  | some s => if s = [] then [] else (strip s).take 500

structure Contact where
  first_name : Str
  middle_name : Str
  last_name : Str
  nickname : Str
  organization : Str
  title : Str
  email_1 : Str
  email_2 : Str
  phone_1 : Str
  phone_2 : Str
  website : Str
  quality_score : ℚ
deriving DecidableEq

/-- calculate_quality_score: name components (0.4 both, 0.2 one, else 0.3 for
organization), 0.3 email, 0.1 phone, 0.15 organization, 0.05 website, capped at 1. -/
def calculate_quality_score (c : Contact) : ℚ :=
  let name_score : ℚ :=
    if c.first_name ≠ [] ∧ c.last_name ≠ [] then mkRat 4 10
    else if c.first_name ≠ [] ∨ c.last_name ≠ [] then mkRat 2 10
    else if c.organization ≠ [] then mkRat 3 10
    else 0
  let contact_score : ℚ :=
    (if c.email_1 ≠ [] then mkRat 3 10 else 0) + (if c.phone_1 ≠ [] then mkRat 1 10 else 0)
  let extra_score : ℚ :=
    (if c.organization ≠ [] then mkRat 15 100 else 0) + (if c.website ≠ [] then mkRat 5 100 else 0)
  min 1 (name_score + contact_score + extra_score)

inductive Classification
  | business
  | personal
  | other
deriving DecidableEq

/-- The set the source names business_domains: it lists the personal email domains. -/
def business_domains : List Str :=
  [chars "gmail.com", chars "yahoo.com", chars "hotmail.com", chars "outlook.com",
   chars "icloud.com", chars "aol.com", chars "live.com"]

/-- Python email.split at-sign and last element: the part after the last at sign. -/
def afterLastAt (s : Str) : Str := (s.reverse.takeWhile (fun c => c != '@')).reverse

/-- The domain extraction of classify_contact: part after the last at sign, empty if none. -/
def emailDomain (email : Str) : Str := if '@' ∈ email then afterLastAt email else []

/-- classify_contact: organization, then title, then email domain heuristics. -/
def classify_contact (c : Contact) : Classification :=
  let email := lower c.email_1
  if c.organization ≠ [] ∧ strip c.organization ≠ [] then Classification.business
  else if c.title ≠ [] ∧ strip c.title ≠ [] then Classification.business
  else if email ≠ [] then
    let domain := emailDomain email
    if domain ∈ business_domains then Classification.personal
    else if domain ≠ [] then Classification.business
    else Classification.other
  else Classification.other

/-- The composite identity keys of detect_duplicates, in the order the source
builds them: email, phone (last ten digits when at least ten), full name. -/
def keyParts (c : Contact) : List Str :=
  (if c.email_1 ≠ [] then [chars "email:" ++ lower c.email_1] else []) ++
  (if c.phone_1 ≠ [] then
     (let normalized := c.phone_1.filter Char.isDigit
      if 10 ≤ normalized.length then
        [chars "phone:" ++ normalized.drop (normalized.length - 10)]
      else [])
   else []) ++
  (if c.first_name ≠ [] ∧ c.last_name ≠ [] then
     [chars "name:" ++ lower c.first_name ++ chars ":" ++ lower c.last_name]
   else [])

structure DedupState where
  seen : Str → Option Contact
  dedup : List Contact
  removed : Nat

/-- The duplicate scan of detect_duplicates: value of the first key present in
the mapping, none when no key matches. -/
def findFirst (seen : Str → Option Contact) (keys : List Str) : Option Contact :=
  match keys.find? (fun k => (seen k).isSome) with
  | some k => seen k
  | none => none

/-- One iteration of detect_duplicates' main loop.  A keyless record is kept
unconditionally; a record matching a seen key either replaces the existing
representative (when strictly higher quality: the existing record is removed
from the output by value equality, every key whose value equals it is
re-pointed, and the new record is appended) or is dropped, incrementing the
duplicates counter either way; otherwise all its keys are registered and it is
appended. -/
def dedupStep (st : DedupState) (c : Contact) : DedupState :=
  let keys := keyParts c
  if keys = [] then { st with dedup := st.dedup ++ [c] }
  else
    match findFirst st.seen keys with
    | some existing =>
      if existing.quality_score < c.quality_score then
        { seen := fun k => if st.seen k = some existing then some c else st.seen k,
          dedup := st.dedup.filter (fun x => x ≠ existing) ++ [c],
          removed := st.removed + 1 }
      else { st with removed := st.removed + 1 }
    | none =>
      { seen := fun k => if k ∈ keys then some c else st.seen k,
        dedup := st.dedup ++ [c],
        removed := st.removed }

def initState : DedupState := { seen := fun _ => none, dedup := [], removed := 0 }

def runDedup (contacts : List Contact) : DedupState := contacts.foldl dedupStep initState

def detect_duplicates (contacts : List Contact) : List Contact := (runDedup contacts).dedup

/-- The duplicates_removed counter accumulated by one detect_duplicates run. -/
def duplicates_removed (contacts : List Contact) : Nat := (runDedup contacts).removed

/-- A raw row: the recognized source columns, each possibly missing. -/
structure Row where
  firstName : Option Str
  middleName : Option Str
  lastName : Option Str
  nickname : Option Str
  orgName : Option Str
  orgTitle : Option Str
  email1 : Option Str
  email2 : Option Str
  phone1 : Option Str
  phone2 : Option Str
  website : Option Str

/-- One iteration of extract_contact_data: normalize every field, then score. -/
def extractRow (r : Row) : Contact :=
  let c : Contact :=
    { first_name := clean_text r.firstName
      middle_name := clean_text r.middleName
      last_name := clean_text r.lastName
      nickname := clean_text r.nickname
      organization := clean_text r.orgName
      title := clean_text r.orgTitle
      email_1 := clean_email r.email1
      email_2 := clean_email r.email2
      phone_1 := clean_phone r.phone1
      phone_2 := clean_phone r.phone2
      website := clean_url r.website
      quality_score := 0 }
  { c with quality_score := calculate_quality_score c }

/-- extract_contact_data: keep only records scoring at least 0.3. -/
def extract_contact_data (rows : List Row) : List Contact :=
  (rows.map extractRow).filter (fun c => mkRat 3 10 ≤ c.quality_score)

/-- The classification pass of process_all_files over the deduplicated records. -/
def classify_all (contacts : List Contact) : List (Contact × Classification) :=
  contacts.map (fun c => (c, classify_contact c))

/-- Modelled from the spec's wording of the quality scorer (section 4.2), for
comparison with the source function calculate_quality_score: at most one of
the three name bonuses, by priority; the organization 0.15 stacks. -/
def quality_score_spec (c : Contact) : ℚ :=
  min 1
    ((if c.first_name ≠ [] ∧ c.last_name ≠ [] then mkRat 4 10
      else if (c.first_name ≠ [] ∧ c.last_name = []) ∨ (c.first_name = [] ∧ c.last_name ≠ []) then mkRat 2 10
      else if c.organization ≠ [] then mkRat 3 10 else 0) +
     (if c.email_1 ≠ [] then mkRat 3 10 else 0) +
     (if c.phone_1 ≠ [] then mkRat 1 10 else 0) +
     (if c.organization ≠ [] then mkRat 15 100 else 0) +
     (if c.website ≠ [] then mkRat 5 100 else 0))

/-- The record with every field empty, the base for the concrete examples. -/
def emptyContact : Contact :=
  { first_name := [], middle_name := [], last_name := [], nickname := [], organization := [],
    title := [], email_1 := [], email_2 := [], phone_1 := [], phone_2 := [], website := [],
    quality_score := 0 }

def cA : Contact := { emptyContact with email_1 := chars "e@x.com", quality_score := mkRat 2 5 }

def cB : Contact :=
  { emptyContact with email_1 := chars "e@x.com", phone_1 := chars "5551234567", quality_score := mkRat 9 10 }

def cC : Contact := { emptyContact with phone_1 := chars "5551234567", quality_score := mkRat 1 2 }

def cM : Contact := { emptyContact with website := chars "w" }

def cM2 : Contact := { emptyContact with nickname := chars "n" }

def cX : Contact :=
  { emptyContact with email_1 := chars "e2@y.com", phone_1 := chars "5551234567", quality_score := mkRat 7 10 }

def cV : Contact := { emptyContact with email_1 := chars "e2@y.com", quality_score := mkRat 3 10 }

def cU : Contact := { emptyContact with phone_1 := chars "5551234567", quality_score := mkRat 9 10 }

def cAcme : Contact :=
  { emptyContact with organization := chars "Acme Corp", email_1 := chars "x@acme.io" }

def janeRow : Row :=
  { firstName := some (chars "Jane"), middleName := none, lastName := some (chars "Doe"),
    nickname := none, orgName := none, orgTitle := none, email1 := none, email2 := none,
    phone1 := none, phone2 := none, website := none }

def janeDoe : Contact := { emptyContact with first_name := chars "Jane", last_name := chars "Doe" }

def st0 : DedupState :=
  { seen := fun k => if k = chars "email:e@x.com" then some cA else none,
    dedup := [cA], removed := 0 }

def st1 : DedupState := runDedup [cC, cX, cV, cX]

/-- A 501 character string: its strip keeps length 501, so the 500 cap bites. -/
def longA : Str := List.replicate 499 'a' ++ [' ', 'b']

/-- Two records with no identity key in common. -/
def disjKeys (a b : Contact) : Prop := ∀ k, k ∈ keyParts a → k ∉ keyParts b

/-- State invariant of the duplicate detector on single-key inputs: kept
records are pairwise key-disjoint, every key of a kept record maps to that
record, the mapping holds only keys of kept records, and every kept record
has at most one key. -/
def DedupInv (st : DedupState) : Prop :=
  st.dedup.Pairwise disjKeys ∧
  (∀ c, c ∈ st.dedup → ∀ k, k ∈ keyParts c → st.seen k = some c) ∧
  (∀ k c, st.seen k = some c → c ∈ st.dedup ∧ k ∈ keyParts c) ∧
  (∀ c, c ∈ st.dedup → (keyParts c).length ≤ 1)

/-! Helper lemmas about the string utilities. -/

theorem dropWhile_idem (p : α → Bool) (l : List α) :
    (l.dropWhile p).dropWhile p = l.dropWhile p := by
  induction l with
  | nil => rfl
  | cons a t ih =>
    by_cases h : p a
    · simp [List.dropWhile_cons, h, ih]
    · simp [List.dropWhile_cons, h]

theorem dropWhile_head_not (p : α → Bool) (l : List α) :
    ∀ a t, l.dropWhile p = a :: t → p a = false := by
  induction l with
  | nil => intro a t h; simp [List.dropWhile] at h
  | cons b m ih =>
    intro a t h
    rw [List.dropWhile_cons] at h
    by_cases hb : p b
    · rw [if_pos hb] at h; exact ih a t h
    · rw [if_neg hb] at h
      cases h
      simpa using hb

theorem dropWhile_eq_self_of_head (p : α → Bool) (l : List α)
    (h : ∀ a, l.head? = some a → p a = false) : l.dropWhile p = l := by
  cases l with
  | nil => rfl
  | cons a t =>
    rw [List.dropWhile_cons, if_neg]
    simp [h a rfl]

theorem stripRight_strip (s : Str) : ((strip s).reverse.dropWhile isSpace).reverse = strip s := by
  unfold strip
  rw [List.reverse_reverse, dropWhile_idem]

theorem stripLeft_strip (s : Str) : (strip s).dropWhile isSpace = strip s := by
  apply dropWhile_eq_self_of_head
  intro a ha
  unfold strip at ha
  rw [List.head?_reverse] at ha
  have h1 : ((s.dropWhile isSpace).reverse.takeWhile isSpace ++
      (s.dropWhile isSpace).reverse.dropWhile isSpace).getLast? = some a := by
    rw [List.getLast?_append, ha]
    rfl
  rw [List.takeWhile_append_dropWhile, List.getLast?_reverse] at h1
  cases hd : s.dropWhile isSpace with
  | nil => rw [hd] at h1; exact absurd h1 (by simp)
  | cons b m =>
    rw [hd] at h1
    have hab : b = a := by simpa using h1
    subst hab
    exact dropWhile_head_not isSpace s b m hd

theorem strip_idem (s : Str) : strip (strip s) = strip s := by
  conv_lhs => rw [strip, stripLeft_strip]
  exact stripRight_strip s

theorem splitTriColon_no_colon : ∀ s : Str, (∀ c ∈ s, c ≠ ':') → splitTriColon s = [s] := by
  intro s
  induction s with
  | nil => intro h; rfl
  | cons c rest ih =>
    intro h
    have hc : c ≠ ':' := h c (by simp)
    have hrest : splitTriColon rest = [rest] := ih (fun x hx => h x (by simp [hx]))
    rw [splitTriColon.eq_def]
    split
    · rename_i heq
      injection heq with h1 h2
      exact absurd h1 hc
    · rename_i c2 rest2 hno heq
      injection heq with h1 h2
      subst h1; subst h2
      rw [hrest]
    · rename_i heq
      exact absurd heq (by simp)

theorem breakAtFirst_eq (x : Char) :
    ∀ s a b, breakAtFirst x s = some (a, b) → s = a ++ x :: b ∧ x ∉ a := by
  intro s
  induction s with
  | nil => intro a b h; simp [breakAtFirst] at h
  | cons c rest ih =>
    intro a b h
    rw [breakAtFirst] at h
    by_cases hc : c = x
    · rw [if_pos hc] at h
      injection h with h1
      injection h1 with ha hb
      subst hc
      constructor
      · rw [← ha, ← hb]; rfl
      · rw [← ha]; simp
    · rw [if_neg hc] at h
      cases hb : breakAtFirst x rest with
      | none => rw [hb] at h; simp at h
      | some p =>
        rw [hb] at h
        simp only [Option.map_some'] at h
        injection h with h1
        have hp1 : c :: p.1 = a := congrArg Prod.fst h1
        have hp2 : p.2 = b := congrArg Prod.snd h1
        obtain ⟨hr, hnx⟩ := ih p.1 p.2 (by rw [hb])
        constructor
        · rw [← hp1, ← hp2]
          simp [hr]
        · rw [← hp1]
          intro hmem
          rcases List.mem_cons.mp hmem with h2 | h2
          · exact hc h2.symm
          · exact hnx h2

theorem isLocalChar_colon : isLocalChar ':' = false := by decide

theorem isDomainChar_colon : isDomainChar ':' = false := by decide

theorem isAlpha_colon : Char.isAlpha ':' = false := by decide

theorem isPhoneChar_colon : isPhoneChar ':' = false := by decide

theorem emailMatch_nil : emailMatch [] = false := by decide

theorem emailMatch_no_colon (s : Str) (h : emailMatch s = true) : ':' ∉ s := by
  unfold emailMatch at h
  split at h
  · exact absurd h (by simp)
  · split at h
    · exact absurd h (by simp)
    · rename_i xo L R heq1 xi Trev Drev heq2
      simp only [Bool.and_eq_true, decide_eq_true_eq, List.all_eq_true] at h
      obtain ⟨⟨⟨⟨⟨hL, hLall⟩, hD⟩, hDall⟩, hTall⟩, hTlen⟩ := h
      obtain ⟨hs, hLat⟩ := breakAtFirst_eq '@' s L R heq1
      obtain ⟨hR, hTdot⟩ := breakAtFirst_eq '.' R.reverse Trev Drev heq2
      intro hmem
      rw [hs] at hmem
      rcases List.mem_append.mp hmem with hm | hm
      · have := hLall ':' hm
        rw [isLocalChar_colon] at this
        exact Bool.false_ne_true this
      · rcases List.mem_cons.mp hm with hm2 | hm2
        · exact absurd hm2 (by decide)
        · have hmrev : ':' ∈ R.reverse := List.mem_reverse.mpr hm2
          rw [hR] at hmrev
          rcases List.mem_append.mp hmrev with hm3 | hm3
          · have := hTall ':' hm3
            rw [isAlpha_colon] at this
            exact Bool.false_ne_true this
          · rcases List.mem_cons.mp hm3 with hm4 | hm4
            · exact absurd hm4 (by decide)
            · have := hDall ':' hm4
              rw [isDomainChar_colon] at this
              exact Bool.false_ne_true this

theorem emailLoop_eq (l : List Str) :
    emailLoop l = ((l.map strip).find? emailMatch).getD [] := by
  induction l with
  | nil => rfl
  | cons e rest ih =>
    rw [emailLoop, List.map_cons]
    by_cases h : emailMatch (strip e)
    · rw [if_pos h, List.find?_cons_of_pos _ h]
      rfl
    · rw [if_neg h, List.find?_cons_of_neg, ih]
      simpa using h

theorem emailLoop_cases (l : List Str) :
    emailLoop l = [] ∨
      (emailMatch (emailLoop l) = true ∧ ∃ e ∈ l, emailLoop l = strip e) := by
  induction l with
  | nil => left; rfl
  | cons e rest ih =>
    rw [emailLoop]
    by_cases h : emailMatch (strip e)
    · right
      rw [if_pos h]
      exact ⟨h, e, by simp, rfl⟩
    · rw [if_neg h]
      rcases ih with h2 | ⟨h2, e2, he2, heq⟩
      · left; exact h2
      · right; exact ⟨h2, e2, by simp [he2], heq⟩

theorem clean_text_length (x : Option Str) : (clean_text x).length ≤ 500 := by
  cases x with
  | none => simp [clean_text]
  | some s => simp [clean_text, List.length_take_le]

theorem clean_url_length (x : Option Str) : (clean_url x).length ≤ 500 := by
  cases x with
  | none => simp [clean_url]
  | some s =>
    by_cases h : s = []
    · simp [clean_url, h]
    · simp [clean_url, h, List.length_take_le]

theorem clean_phone_length (x : Option Str) : (clean_phone x).length ≤ 20 := by
  cases x with
  | none => simp [clean_phone]
  | some s =>
    by_cases h : s = []
    · simp [clean_phone, h]
    · simp [clean_phone, h, List.length_take_le]

theorem clean_phone_chars (x : Option Str) :
    ∀ c ∈ clean_phone x, isPhoneChar c = true := by
  cases x with
  | none => simp [clean_phone]
  | some s =>
    by_cases h : s = []
    · simp [clean_phone, h]
    · intro c hc
      simp only [clean_phone, if_neg h] at hc
      exact List.of_mem_filter (List.take_subset _ _ hc)

theorem clean_email_valid (x : Option Str) :
    clean_email x = [] ∨ emailMatch (clean_email x) = true := by
  cases x with
  | none => left; rfl
  | some s =>
    by_cases h : s = []
    · left; simp [clean_email, h]
    · simp only [clean_email, if_neg h]
      rcases emailLoop_cases (splitTriColon s) with h2 | ⟨h2, _⟩
      · left; exact h2
      · right; exact h2

theorem clean_phone_output_fixed (p : Str) (hlen : p.length ≤ 20)
    (hall : ∀ c ∈ p, isPhoneChar c = true) (hstrip : strip p = p) :
    clean_phone (some p) = p := by
  by_cases hp : p = []
  · simp [clean_phone, hp]
  · have hnc : ∀ c ∈ p, c ≠ ':' := by
      intro c hc hceq
      have := hall c hc
      rw [hceq, isPhoneChar_colon] at this
      exact Bool.false_ne_true this
    simp only [clean_phone, if_neg hp, splitTriColon_no_colon p hnc, List.headD]
    rw [hstrip, List.filter_eq_self.mpr hall, List.take_of_length_le hlen]

theorem clean_url_output_fixed (u : Str) (hlen : u.length ≤ 500) (hstrip : strip u = u) :
    clean_url (some u) = u := by
  by_cases hu : u = []
  · simp [clean_url, hu]
  · simp only [clean_url, if_neg hu]
    rw [hstrip, List.take_of_length_le hlen]

theorem clean_text_idem_of_le (s : Str) (h : (strip s).length ≤ 500) :
    clean_text (some (clean_text (some s))) = clean_text (some s) := by
  have h1 : clean_text (some s) = strip s := by
    simp only [clean_text]
    exact List.take_of_length_le h
  rw [h1]
  simp only [clean_text, strip_idem]
  exact List.take_of_length_le h

theorem clean_phone_fixed (x : Option Str) (h : strip (clean_phone x) = clean_phone x) :
    clean_phone (some (clean_phone x)) = clean_phone x :=
  clean_phone_output_fixed (clean_phone x) (clean_phone_length x) (clean_phone_chars x) h

theorem clean_url_fixed (x : Option Str) (h : strip (clean_url x) = clean_url x) :
    clean_url (some (clean_url x)) = clean_url x :=
  clean_url_output_fixed (clean_url x) (clean_url_length x) h

theorem clean_email_fixed (x : Option Str) :
    clean_email (some (clean_email x)) = clean_email x := by
  cases x with
  | none => rfl
  | some s =>
    by_cases hs : s = []
    · simp [clean_email, hs]
    · simp only [clean_email, if_neg hs]
      rcases emailLoop_cases (splitTriColon s) with h2 | ⟨hm, e, he, heq⟩
      · rw [h2]; rfl
      · have hstrip : strip (emailLoop (splitTriColon s)) = emailLoop (splitTriColon s) := by
          rw [heq]; exact strip_idem e
        have hrne : emailLoop (splitTriColon s) ≠ [] := by
          intro h0
          rw [h0, emailMatch_nil] at hm
          exact Bool.false_ne_true hm
        have hnc : ∀ c ∈ emailLoop (splitTriColon s), c ≠ ':' := by
          intro c hc hceq
          exact emailMatch_no_colon _ hm (hceq ▸ hc)
        rw [if_neg hrne, splitTriColon_no_colon _ hnc, emailLoop]
        rw [hstrip, if_pos hm]

/-! Helper lemmas about the duplicate detector. -/

theorem keyless_step (st : DedupState) (c : Contact) (h : keyParts c = []) :
    dedupStep st c = { st with dedup := st.dedup ++ [c] } := by
  simp [dedupStep, h]

theorem unique_step (st : DedupState) (c : Contact) (h0 : keyParts c ≠ [])
    (h1 : findFirst st.seen (keyParts c) = none) :
    dedupStep st c =
      { seen := fun k => if k ∈ keyParts c then some c else st.seen k,
        dedup := st.dedup ++ [c], removed := st.removed } := by
  simp [dedupStep, h0, h1]

theorem replace_step (st : DedupState) (c E : Contact) (h0 : keyParts c ≠ [])
    (h1 : findFirst st.seen (keyParts c) = some E)
    (h2 : E.quality_score < c.quality_score) :
    dedupStep st c =
      { seen := fun k => if st.seen k = some E then some c else st.seen k,
        dedup := st.dedup.filter (fun x => x ≠ E) ++ [c],
        removed := st.removed + 1 } := by
  simp [dedupStep, h0, h1, h2]

theorem discard_step (st : DedupState) (c E : Contact) (h0 : keyParts c ≠ [])
    (h1 : findFirst st.seen (keyParts c) = some E)
    (h2 : ¬ E.quality_score < c.quality_score) :
    dedupStep st c = { st with removed := st.removed + 1 } := by
  simp [dedupStep, h0, h1, h2]

theorem findFirst_none_of (seen : Str → Option Contact) (keys : List Str)
    (h : ∀ k ∈ keys, seen k = none) : findFirst seen keys = none := by
  unfold findFirst
  rw [List.find?_eq_none.mpr]
  intro k hk
  simp [h k hk]

theorem of_findFirst_none (seen : Str → Option Contact) (keys : List Str)
    (h : findFirst seen keys = none) : ∀ k ∈ keys, seen k = none := by
  unfold findFirst at h
  cases hf : keys.find? (fun k => (seen k).isSome) with
  | none =>
    intro k hk
    have := List.find?_eq_none.mp hf k hk
    simpa using this
  | some k =>
    have h1 : seen k = none := by rw [hf] at h; exact h
    have h2 := List.find?_some hf
    rw [h1] at h2
    simp at h2

theorem findFirst_some (seen : Str → Option Contact) (keys : List Str) (E : Contact)
    (h : findFirst seen keys = some E) : ∃ k ∈ keys, seen k = some E := by
  unfold findFirst at h
  cases hf : keys.find? (fun k => (seen k).isSome) with
  | none => rw [hf] at h; simp at h
  | some k =>
    rw [hf] at h
    exact ⟨k, List.mem_of_find?_eq_some hf, h⟩

theorem findFirst_cons_some (seen : Str → Option Contact) (k : Str) (keys : List Str)
    (E : Contact) (h : seen k = some E) : findFirst seen (k :: keys) = some E := by
  unfold findFirst
  rw [List.find?_cons_of_pos]
  · exact h
  · simp [h]

theorem step_mem (st : DedupState) (x c : Contact) (h : c ∈ (dedupStep st x).dedup) :
    c ∈ st.dedup ∨ c = x := by
  by_cases h0 : keyParts x = []
  · rw [keyless_step st x h0] at h
    simpa using h
  · cases hf : findFirst st.seen (keyParts x) with
    | none =>
      rw [unique_step st x h0 hf] at h
      simpa using h
    | some E =>
      by_cases hq : E.quality_score < x.quality_score
      · rw [replace_step st x E h0 hf hq] at h
        rcases List.mem_append.mp h with h2 | h2
        · exact Or.inl (List.mem_filter.mp h2).1
        · exact Or.inr (by simpa using h2)
      · rw [discard_step st x E h0 hf hq] at h
        exact Or.inl h

theorem run_mem (l : List Contact) :
    ∀ st c, c ∈ (l.foldl dedupStep st).dedup → c ∈ st.dedup ∨ c ∈ l := by
  induction l with
  | nil => intro st c h; exact Or.inl h
  | cons a t ih =>
    intro st c h
    rw [List.foldl_cons] at h
    rcases ih (dedupStep st a) c h with h2 | h2
    · rcases step_mem st a c h2 with h3 | h3
      · exact Or.inl h3
      · exact Or.inr (by simp [h3])
    · exact Or.inr (by simp [h2])

theorem keyless_run (m : List Contact) :
    ∀ st, (∀ c ∈ m, keyParts c = []) → m.foldl dedupStep st = { st with dedup := st.dedup ++ m } := by
  induction m with
  | nil => intro st h; cases st; simp
  | cons a t ih =>
    intro st h
    rw [List.foldl_cons, keyless_step st a (h a (by simp))]
    rw [ih _ (fun c hc => h c (by simp [hc]))]
    simp

theorem run_id (l : List Contact) :
    ∀ st, l.Pairwise disjKeys → (∀ c ∈ l, ∀ k ∈ keyParts c, st.seen k = none) →
      (l.foldl dedupStep st).dedup = st.dedup ++ l := by
  induction l with
  | nil => intro st _ _; simp
  | cons c rest ih =>
    intro st hp hseen
    obtain ⟨hhead, htail⟩ := List.pairwise_cons.mp hp
    rw [List.foldl_cons]
    by_cases h0 : keyParts c = []
    · rw [keyless_step st c h0,
        ih { st with dedup := st.dedup ++ [c] } htail
          (fun d hd k hk => hseen d (by simp [hd]) k hk)]
      simp
    · have hff : findFirst st.seen (keyParts c) = none :=
        findFirst_none_of _ _ (fun k hk => hseen c (by simp) k hk)
      rw [unique_step st c h0 hff,
        ih { seen := fun k => if k ∈ keyParts c then some c else st.seen k,
             dedup := st.dedup ++ [c], removed := st.removed } htail ?_]
      · simp
      · intro d hd k hk
        have hnotin : k ∉ keyParts c := fun hkc => hhead d hd k hkc hk
        show (if k ∈ keyParts c then some c else st.seen k) = none
        rw [if_neg hnotin]
        exact hseen d (by simp [hd]) k hk

theorem eq_singleton_of_length_le_one {α : Type} (l : List α) (h : l.length ≤ 1)
    (a : α) (ha : a ∈ l) : l = [a] := by
  cases l with
  | nil => simp at ha
  | cons b t =>
    cases t with
    | nil => simp at ha; rw [ha]
    | cons b2 t2 => simp at h

theorem keyParts_eq_of_eq {a b : Contact} (h : a = b) : keyParts a = keyParts b := by rw [h]

theorem step_inv (st : DedupState) (x : Contact) (hx : (keyParts x).length ≤ 1)
    (h : DedupInv st) : DedupInv (dedupStep st x) := by
  obtain ⟨hP, hReg, hSeen, hLen⟩ := h
  by_cases h0 : keyParts x = []
  · rw [keyless_step st x h0]
    refine ⟨?_, ?_, ?_, ?_⟩
    · rw [List.pairwise_append]
      refine ⟨hP, by simp, ?_⟩
      intro a ha b hb k hk
      have hbx : b = x := by simpa using hb
      rw [hbx, h0]
      simp
    · intro c hc k hk
      rcases List.mem_append.mp hc with h2 | h2
      · exact hReg c h2 k hk
      · have hcx : c = x := by simpa using h2
        rw [hcx, h0] at hk
        simp at hk
    · intro k c hkc
      obtain ⟨h2, h3⟩ := hSeen k c hkc
      exact ⟨List.mem_append_left _ h2, h3⟩
    · intro c hc
      rcases List.mem_append.mp hc with h2 | h2
      · exact hLen c h2
      · have hcx : c = x := by simpa using h2
        rw [hcx]
        exact hx
  · cases hf : findFirst st.seen (keyParts x) with
    | none =>
      rw [unique_step st x h0 hf]
      have hnone := of_findFirst_none _ _ hf
      refine ⟨?_, ?_, ?_, ?_⟩
      · rw [List.pairwise_append]
        refine ⟨hP, by simp, ?_⟩
        intro a ha b hb k hk
        have hbx : b = x := by simpa using hb
        rw [hbx]
        intro hkx
        have := hReg a ha k hk
        rw [hnone k hkx] at this
        simp at this
      · intro c hc k hk
        rcases List.mem_append.mp hc with h2 | h2
        · have hkx : k ∉ keyParts x := by
            intro hkx
            have := hReg c h2 k hk
            rw [hnone k hkx] at this
            simp at this
          show (if k ∈ keyParts x then some x else st.seen k) = some c
          rw [if_neg hkx]
          exact hReg c h2 k hk
        · have hcx : c = x := by simpa using h2
          subst hcx
          show (if k ∈ keyParts c then some c else st.seen k) = some c
          rw [if_pos hk]
      · intro k c hkc
        by_cases hkx : k ∈ keyParts x
        · have : some x = some c := by
            rw [← hkc]
            show some x = (if k ∈ keyParts x then some x else st.seen k)
            rw [if_pos hkx]
          injection this with h2
          subst h2
          exact ⟨List.mem_append_right _ (by simp), hkx⟩
        · have hst : st.seen k = some c := by
            rw [← hkc]
            show st.seen k = (if k ∈ keyParts x then some x else st.seen k)
            rw [if_neg hkx]
          obtain ⟨h2, h3⟩ := hSeen k c hst
          exact ⟨List.mem_append_left _ h2, h3⟩
      · intro c hc
        rcases List.mem_append.mp hc with h2 | h2
        · exact hLen c h2
        · have hcx : c = x := by simpa using h2
          rw [hcx]
          exact hx
    | some E =>
      obtain ⟨k0, hk0mem, hk0⟩ := findFirst_some _ _ _ hf
      obtain ⟨hEmem, hk0E⟩ := hSeen k0 E hk0
      have hkeysE : keyParts E = [k0] :=
        eq_singleton_of_length_le_one _ (hLen E hEmem) k0 hk0E
      have hkeysx : keyParts x = [k0] :=
        eq_singleton_of_length_le_one _ hx k0 hk0mem
      by_cases hq : E.quality_score < x.quality_score
      · rw [replace_step st x E h0 hf hq]
        refine ⟨?_, ?_, ?_, ?_⟩
        · rw [List.pairwise_append]
          refine ⟨hP.sublist (List.filter_sublist _), by simp, ?_⟩
          intro a ha b hb k hk
          have hbx : b = x := by simpa using hb
          subst hbx
          rw [hkeysx]
          obtain ⟨haDedup, haNe⟩ := List.mem_filter.mp ha
          intro hkk0
          have hkk : k = k0 := by simpa using hkk0
          subst hkk
          have hsa := hReg a haDedup k hk
          rw [hk0] at hsa
          injection hsa with h2
          have hane : a ≠ E := by simpa using haNe
          exact hane h2.symm
        · intro c hc k hk
          rcases List.mem_append.mp hc with h2 | h2
          · obtain ⟨hcDedup, hcNe⟩ := List.mem_filter.mp h2
            have hcne : c ≠ E := by simpa using hcNe
            have hst : st.seen k = some c := hReg c hcDedup k hk
            show (if st.seen k = some E then some x else st.seen k) = some c
            rw [if_neg (by rw [hst]; intro h3; injection h3 with h4; exact hcne h4), hst]
          · have hcx : c = x := by simpa using h2
            subst hcx
            rw [hkeysx] at hk
            have hkk : k = k0 := by simpa using hk
            subst hkk
            show (if st.seen k = some E then some c else st.seen k) = some c
            rw [if_pos hk0]
        · intro k c hkc
          by_cases hkE : st.seen k = some E
          · have : some x = some c := by
              rw [← hkc]
              show some x = (if st.seen k = some E then some x else st.seen k)
              rw [if_pos hkE]
            injection this with h2
            subst h2
            have hkinE : k ∈ keyParts E := (hSeen k E hkE).2
            rw [hkeysE] at hkinE
            have hkk : k = k0 := by simpa using hkinE
            subst hkk
            exact ⟨List.mem_append_right _ (by simp), by rw [hkeysx]; simp⟩
          · have hst : st.seen k = some c := by
              rw [← hkc]
              show st.seen k = (if st.seen k = some E then some x else st.seen k)
              rw [if_neg hkE]
            obtain ⟨h2, h3⟩ := hSeen k c hst
            have hcne : c ≠ E := by
              intro h4
              rw [h4] at hst
              exact hkE hst
            refine ⟨List.mem_append_left _ ?_, h3⟩
            exact List.mem_filter.mpr ⟨h2, by simpa using hcne⟩
        · intro c hc
          rcases List.mem_append.mp hc with h2 | h2
          · exact hLen c (List.mem_filter.mp h2).1
          · have hcx : c = x := by simpa using h2
            rw [hcx]
            exact hx
      · rw [discard_step st x E h0 hf hq]
        exact ⟨hP, hReg, hSeen, hLen⟩

theorem fold_inv (l : List Contact) :
    ∀ st, DedupInv st → (∀ c ∈ l, (keyParts c).length ≤ 1) →
      DedupInv (l.foldl dedupStep st) := by
  induction l with
  | nil => intro st h _; exact h
  | cons a t ih =>
    intro st h hl
    rw [List.foldl_cons]
    exact ih _ (step_inv st a (hl a (by simp)) h) (fun c hc => hl c (by simp [hc]))

theorem inv_init : DedupInv initState := by
  refine ⟨?_, ?_, ?_, ?_⟩
  · simp [initState]
  · intro c hc; simp [initState] at hc
  · intro k c hkc; simp [initState] at hkc
  · intro c hc; simp [initState] at hc

theorem keyParts_email_head (c : Contact) (h : c.email_1 ≠ []) :
    ∃ t, keyParts c = (chars "email:" ++ lower c.email_1) :: t := by
  unfold keyParts
  rw [if_pos h]
  exact ⟨_, rfl⟩

/-! The claims. -/

/-- C5: for every raw email input, clean_email splits the string on ":::",
strips each candidate, and returns the first candidate matching the email
grammar, or the empty string when none matches; in particular it maps
"a@b.com ::: not-an-email" to "a@b.com" and "bad" to "". -/
theorem claim_c5 :
    (∀ s : Str,
      clean_email (some s) = (((splitTriColon s).map strip).find? emailMatch).getD []) ∧
    clean_email (some (chars "a@b.com ::: not-an-email")) = chars "a@b.com" ∧
    clean_email (some (chars "bad")) = [] := by
  refine ⟨?_, by decide, by decide⟩
  intro s
  by_cases h : s = []
  · subst h; decide
  · simp only [clean_email, if_neg h]
    exact emailLoop_eq _

set_option maxRecDepth 4000 in
/-- C7 counterexample: clean_text is not idempotent (a 501 character input
whose 500 character cap exposes a trailing space), and clean_phone and
clean_url do not map their own outputs to themselves (a character removal,
or the cap, can expose edge whitespace that a second pass strips). -/
theorem claim_c7_cex :
    clean_text (some (clean_text (some longA))) ≠ clean_text (some longA) ∧
    clean_phone (some (clean_phone (some (chars "a 1")))) ≠ clean_phone (some (chars "a 1")) ∧
    clean_url (some (clean_url (some longA))) ≠ clean_url (some longA) :=
  ⟨by decide, by decide, by decide⟩

/-- C7 amended: clean_text is idempotent on inputs whose stripped form fits
the 500 character cap; clean_email always maps its own output to itself; and
clean_phone and clean_url map an output of theirs to itself whenever that
output carries no leading or trailing whitespace. -/
theorem claim_c7 :
    (∀ s : Str, (strip s).length ≤ 500 →
        clean_text (some (clean_text (some s))) = clean_text (some s)) ∧
    (∀ x : Option Str, clean_email (some (clean_email x)) = clean_email x) ∧
    (∀ x : Option Str, strip (clean_phone x) = clean_phone x →
        clean_phone (some (clean_phone x)) = clean_phone x) ∧
    (∀ x : Option Str, strip (clean_url x) = clean_url x →
        clean_url (some (clean_url x)) = clean_url x) :=
  ⟨clean_text_idem_of_le, clean_email_fixed, clean_phone_fixed, clean_url_fixed⟩

theorem claim_c7_witness :
    clean_text (some (clean_text (some (chars "hi")))) = clean_text (some (chars "hi")) ∧
    clean_email (some (clean_email (some (chars "a@b.com")))) = clean_email (some (chars "a@b.com")) ∧
    clean_phone (some (clean_phone (some (chars "123")))) = clean_phone (some (chars "123")) ∧
    clean_url (some (clean_url (some (chars "w.io")))) = clean_url (some (chars "w.io")) :=
  ⟨claim_c7.1 (chars "hi") (by decide), claim_c7.2.1 (some (chars "a@b.com")),
   claim_c7.2.2.1 (some (chars "123")) (by decide),
   claim_c7.2.2.2 (some (chars "w.io")) (by decide)⟩

/-- C8: every normalization function is total, missing and blank inputs give
the empty string, a malformed email degrades to the empty string (the output
is empty or matches the grammar), and all outputs respect their caps. -/
theorem claim_c8 :
    clean_text none = [] ∧ clean_email none = [] ∧ clean_phone none = [] ∧ clean_url none = [] ∧
    (∀ x : Option Str, clean_email x = [] ∨ emailMatch (clean_email x) = true) ∧
    (∀ x : Option Str, (clean_text x).length ≤ 500) ∧
    (∀ x : Option Str, (clean_phone x).length ≤ 20) ∧
    (∀ x : Option Str, (clean_url x).length ≤ 500) :=
  ⟨rfl, rfl, rfl, rfl, clean_email_valid, clean_text_length, clean_phone_length, clean_url_length⟩

/-- C3: the quality score is the weighted sum described by the spec (name
bonuses 0.4 / 0.2 / organization 0.3, at most one, in that priority; plus 0.3
email, 0.1 phone, 0.15 organization stacking, 0.05 website; capped at 1), it
always lies between 0 and 1, and a record with only first name Jane and last
name Doe scores exactly 0.4. -/
theorem claim_c3 :
    (∀ c : Contact, calculate_quality_score c = quality_score_spec c ∧
        0 ≤ calculate_quality_score c ∧ calculate_quality_score c ≤ 1) ∧
    calculate_quality_score janeDoe = mkRat 4 10 := by
  constructor
  · intro c
    have hN : (if c.first_name ≠ [] ∧ c.last_name ≠ [] then mkRat 4 10
        else if c.first_name ≠ [] ∨ c.last_name ≠ [] then mkRat 2 10
        else if c.organization ≠ [] then mkRat 3 10 else 0)
        = (if c.first_name ≠ [] ∧ c.last_name ≠ [] then mkRat 4 10
        else if (c.first_name ≠ [] ∧ c.last_name = []) ∨ (c.first_name = [] ∧ c.last_name ≠ [])
          then mkRat 2 10
        else if c.organization ≠ [] then mkRat 3 10 else 0) := by
      by_cases h1 : c.first_name = [] <;> by_cases h2 : c.last_name = [] <;> simp [h1, h2]
    refine ⟨?_, ?_, ?_⟩
    · simp only [calculate_quality_score, quality_score_spec]
      rw [hN]
      exact congrArg (min 1) (by ring)
    · simp only [calculate_quality_score]
      refine le_min (by decide) (add_nonneg (add_nonneg ?_ ?_) ?_)
      · split_ifs <;> with_unfolding_all decide
      · exact add_nonneg (by split_ifs <;> with_unfolding_all decide)
          (by split_ifs <;> with_unfolding_all decide)
      · exact add_nonneg (by split_ifs <;> with_unfolding_all decide)
          (by split_ifs <;> with_unfolding_all decide)
    · simp only [calculate_quality_score]
      exact min_le_left 1 _
  · with_unfolding_all decide

/-- C4: the classifier's exact precedence on records whose organization and
title fields are trimmed (as the extractor guarantees): non-empty organization
gives business; else non-empty title gives business; else with an email
present, the domain after the last at sign gives personal when it is in the
fixed personal-domain set, business when non-empty and not in the set, and
other when there is no at sign; with nothing available the record is other. -/
theorem claim_c4 (c : Contact) (hOrg : strip c.organization = c.organization)
    (hTitle : strip c.title = c.title) :
    (c.organization ≠ [] → classify_contact c = Classification.business) ∧
    (c.organization = [] → c.title ≠ [] → classify_contact c = Classification.business) ∧
    (c.organization = [] → c.title = [] → c.email_1 ≠ [] →
      ((emailDomain (lower c.email_1) ∈ business_domains →
          classify_contact c = Classification.personal) ∧
       (emailDomain (lower c.email_1) ∉ business_domains →
          emailDomain (lower c.email_1) ≠ [] →
          classify_contact c = Classification.business) ∧
       (emailDomain (lower c.email_1) = [] → classify_contact c = Classification.other))) ∧
    (c.organization = [] → c.title = [] → c.email_1 = [] →
      classify_contact c = Classification.other) := by
  refine ⟨?_, ?_, ?_, ?_⟩
  · intro h
    simp [classify_contact, hOrg, h]
  · intro h1 h2
    simp [classify_contact, hOrg, hTitle, h1, h2]
  · intro h1 h2 h3
    have hl : lower c.email_1 ≠ [] := by simp [lower, h3]
    refine ⟨?_, ?_, ?_⟩
    · intro hd
      simp [classify_contact, h1, h2, hl, hd]
    · intro hd1 hd2
      simp [classify_contact, h1, h2, hl, hd1, hd2]
    · intro hd
      have hd1 : emailDomain (lower c.email_1) ∉ business_domains := by
        rw [hd]; decide
      simp [classify_contact, h1, h2, hl, hd, hd1]
      decide
  · intro h1 h2 h3
    simp [classify_contact, h1, h2, h3, lower]

theorem claim_c4_witness : classify_contact cAcme = Classification.business :=
  (claim_c4 cAcme (by decide) (by decide)).1 (by decide)

/-- C6: a record scoring below 0.3 is discarded by the extractor and so never
appears in the candidate list, the deduplicated list, or the final classified
output: every record in every post-extraction stage scores at least 0.3. -/
theorem claim_c6 (rows : List Row) :
    (∀ c ∈ extract_contact_data rows, mkRat 3 10 ≤ c.quality_score) ∧
    (∀ c ∈ detect_duplicates (extract_contact_data rows), mkRat 3 10 ≤ c.quality_score) ∧
    (∀ p ∈ classify_all (detect_duplicates (extract_contact_data rows)),
        mkRat 3 10 ≤ p.1.quality_score) := by
  have h1 : ∀ c ∈ extract_contact_data rows, mkRat 3 10 ≤ c.quality_score := by
    intro c hc
    exact of_decide_eq_true (List.mem_filter.mp hc).2
  have h2 : ∀ c ∈ detect_duplicates (extract_contact_data rows),
      mkRat 3 10 ≤ c.quality_score := by
    intro c hc
    rcases run_mem (extract_contact_data rows) initState c hc with h3 | h3
    · simp [initState] at h3
    · exact h1 c h3
  refine ⟨h1, h2, ?_⟩
  intro p hp
  obtain ⟨c, hc, hpc⟩ := List.mem_map.mp hp
  rw [← hpc]
  exact h2 c hc

theorem claim_c6_witness : mkRat 3 10 ≤ (extractRow janeRow).quality_score :=
  (claim_c6 [janeRow]).1 (extractRow janeRow) (by with_unfolding_all decide)

/-- C9: when a record replaces a lower-quality representative, only keys
currently mapping to the old representative are re-pointed, and a key absent
from the mapping stays absent, so the incoming record's own new keys are never
registered; consequently on the concrete input cA, cB, cC, the record cC
shares the phone key with the surviving cB yet both appear in the output. -/
theorem claim_c9 :
    (∀ (st : DedupState) (c E : Contact),
        findFirst st.seen (keyParts c) = some E → E.quality_score < c.quality_score →
        (∀ k, st.seen k ≠ some E → (dedupStep st c).seen k = st.seen k) ∧
        (∀ k, st.seen k = none → (dedupStep st c).seen k = none)) ∧
    detect_duplicates [cA, cB, cC] = [cB, cC] ∧
    chars "phone:5551234567" ∈ keyParts cB ∧ chars "phone:5551234567" ∈ keyParts cC := by
  refine ⟨?_, by with_unfolding_all decide, by decide, by decide⟩
  intro st c E hf hq
  have h0 : keyParts c ≠ [] := by
    intro h
    rw [h] at hf
    simp [findFirst] at hf
  rw [replace_step st c E h0 hf hq]
  constructor
  · intro k hk
    show (if st.seen k = some E then some c else st.seen k) = st.seen k
    rw [if_neg hk]
  · intro k hk
    show (if st.seen k = some E then some c else st.seen k) = none
    rw [if_neg (by rw [hk]; simp), hk]

theorem claim_c9_witness : (dedupStep st0 cB).seen (chars "phone:5551234567") = none :=
  (claim_c9.1 st0 cB cA (by with_unfolding_all decide)
    (by with_unfolding_all decide)).2 (chars "phone:5551234567") (by decide)

/-- C10: replacement removes the old representative by whole-record value
equality (every field-equal copy leaves the output) and re-points every key
whose value is field-equal; on the concrete input cC, cX, cV, cX the output
holds two identical copies of cX, and appending cU, whose single replacement
matches one of them, removes both, leaving only cU. -/
theorem claim_c10 :
    (∀ (st : DedupState) (c E : Contact),
        findFirst st.seen (keyParts c) = some E → E.quality_score < c.quality_score →
        (dedupStep st c).dedup = st.dedup.filter (fun x => x ≠ E) ++ [c] ∧
        (∀ k, st.seen k = some E → (dedupStep st c).seen k = some c)) ∧
    detect_duplicates [cC, cX, cV, cX] = [cX, cX] ∧
    detect_duplicates [cC, cX, cV, cX, cU] = [cU] := by
  refine ⟨?_, by with_unfolding_all decide, by with_unfolding_all decide⟩
  intro st c E hf hq
  have h0 : keyParts c ≠ [] := by
    intro h
    rw [h] at hf
    simp [findFirst] at hf
  rw [replace_step st c E h0 hf hq]
  refine ⟨rfl, ?_⟩
  intro k hk
  show (if st.seen k = some E then some c else st.seen k) = some c
  rw [if_pos hk]

theorem claim_c10_witness :
    (dedupStep st1 cU).dedup = st1.dedup.filter (fun x => x ≠ cX) ++ [cU] :=
  (claim_c10.1 st1 cU cX (by with_unfolding_all decide)
    (by with_unfolding_all decide)).1

/-- C2 counterexample: the Deduplicator is not idempotent: on cA, cB, cC the
first pass keeps cB and cC (cB's phone key was never registered when it
replaced cA), while a second pass merges cC into cB. -/
theorem claim_c2_cex :
    detect_duplicates (detect_duplicates [cA, cB, cC]) ≠ detect_duplicates [cA, cB, cC] := by
  with_unfolding_all decide

/-- C2 amended: the Deduplicator is idempotent on inputs whose records each
contribute at most one identity key: a second run over its own output returns
that output unchanged. -/
theorem claim_c2 (l : List Contact) (h : ∀ c ∈ l, (keyParts c).length ≤ 1) :
    detect_duplicates (detect_duplicates l) = detect_duplicates l := by
  have hInv : DedupInv (runDedup l) := fold_inv l initState inv_init h
  obtain ⟨hP, hReg, hSeen, hLen⟩ := hInv
  show (runDedup (detect_duplicates l)).dedup = detect_duplicates l
  unfold runDedup
  rw [run_id (detect_duplicates l) initState hP (fun c hc k hk => rfl)]
  rfl

theorem claim_c2_witness :
    detect_duplicates (detect_duplicates [cA, cC]) = detect_duplicates [cA, cC] :=
  claim_c2 [cA, cC] (by decide)

/-- C1 amended: when record B shares the email identity key with an earlier,
lower-quality record A, B replaces A in the surviving set and the counter
increments by exactly 1, but B is appended at the end of the output at the
time of replacement rather than kept at A's original position (shown for
batches in which the records surrounding A and B carry no identity keys:
the output is the surrounding records in order, then B at the end). -/
theorem claim_c1 (pre mid : List Contact) (A B : Contact)
    (hpre : ∀ c ∈ pre, keyParts c = []) (hmid : ∀ c ∈ mid, keyParts c = [])
    (hAe : A.email_1 ≠ []) (hBe : lower B.email_1 = lower A.email_1)
    (hq : A.quality_score < B.quality_score) :
    detect_duplicates (pre ++ [A] ++ mid ++ [B]) = pre ++ mid ++ [B] ∧
    duplicates_removed (pre ++ [A] ++ mid ++ [B]) = 1 := by
  obtain ⟨tA, hKA⟩ := keyParts_email_head A hAe
  have hAne : keyParts A ≠ [] := by rw [hKA]; simp
  have hBemail : B.email_1 ≠ [] := by
    intro h0
    have h1 : lower A.email_1 = [] := by rw [← hBe, h0]; rfl
    exact hAe (List.map_eq_nil_iff.mp h1)
  obtain ⟨tB, hKB⟩ := keyParts_email_head B hBemail
  have hBne : keyParts B ≠ [] := by rw [hKB]; simp
  have hAkey : (chars "email:" ++ lower B.email_1) ∈ keyParts A := by
    rw [hBe, hKA]
    exact List.mem_cons_self _ _
  have hpreA : ∀ c ∈ pre, c ≠ A := by
    intro c hc heq
    have h1 := hpre c hc
    rw [heq] at h1
    exact hAne h1
  have hmidA : ∀ c ∈ mid, c ≠ A := by
    intro c hc heq
    have h1 := hmid c hc
    rw [heq] at h1
    exact hAne h1
  have hf1 : pre.filter (fun x => x ≠ A) = pre :=
    List.filter_eq_self.mpr (fun c hc => decide_eq_true (hpreA c hc))
  have hf2 : mid.filter (fun x => x ≠ A) = mid :=
    List.filter_eq_self.mpr (fun c hc => decide_eq_true (hmidA c hc))
  have hf3 : ([A] : List Contact).filter (fun x => x ≠ A) = [] := by simp
  have hffB : findFirst (fun k => if k ∈ keyParts A then some A else none)
      (keyParts B) = some A := by
    rw [hKB]
    apply findFirst_cons_some
    show (if (chars "email:" ++ lower B.email_1) ∈ keyParts A then some A else none) = some A
    rw [if_pos hAkey]
  have e1 : List.foldl dedupStep initState pre =
      (⟨fun _ => none, pre, 0⟩ : DedupState) := by
    rw [keyless_run pre initState hpre]
    rfl
  have e2 : dedupStep (⟨fun _ => none, pre, 0⟩ : DedupState) A =
      (⟨fun k => if k ∈ keyParts A then some A else none, pre ++ [A], 0⟩ : DedupState) := by
    rw [unique_step (⟨fun _ => none, pre, 0⟩ : DedupState) A hAne
      (findFirst_none_of _ _ (fun k hk => rfl))]
  have e3 : List.foldl dedupStep
      (⟨fun k => if k ∈ keyParts A then some A else none, pre ++ [A], 0⟩ : DedupState) mid =
      (⟨fun k => if k ∈ keyParts A then some A else none, (pre ++ [A]) ++ mid, 0⟩ :
        DedupState) := by
    rw [keyless_run mid _ hmid]
  have e4 := replace_step
    (⟨fun k => if k ∈ keyParts A then some A else none, (pre ++ [A]) ++ mid, 0⟩ : DedupState)
    B A hBne hffB hq
  unfold detect_duplicates duplicates_removed runDedup
  simp only [List.foldl_append, List.foldl_cons, List.foldl_nil]
  rw [e1, e2, e3, e4]
  constructor
  · show ((pre ++ [A]) ++ mid).filter (fun x => x ≠ A) ++ [B] = pre ++ mid ++ [B]
    simp only [List.filter_append, hf1, hf2, hf3]
    simp
  · rfl

/-- C1 counterexample: with a keyless record cM between cA and its
higher-quality duplicate cB, the replacement cB is re-appended at the end,
not kept at cA's original position: the output is cM then cB, not cB then
cM. -/
theorem claim_c1_cex :
    detect_duplicates [cA, cM, cB] = [cM, cB] ∧ cM ≠ cB :=
  ⟨by with_unfolding_all decide, by decide⟩

theorem claim_c1_witness :
    detect_duplicates ([cM] ++ [cA] ++ [cM2] ++ [cB]) = [cM] ++ [cM2] ++ [cB] ∧
    duplicates_removed ([cM] ++ [cA] ++ [cM2] ++ [cB]) = 1 :=
  claim_c1 [cM] [cM2] cA cB (by decide) (by decide) (by decide) (by decide)
    (by with_unfolding_all decide)
